import Mathlib

/-!
Verification of the blobfish transcription gateway (bfsrv) against its
natural-language specification.  The Rust sources are shallowly embedded:
pure functions become Lean functions, stateful methods become explicit
state passing, machine integers become `Nat`/`Int` (with the places where
Rust debug arithmetic would panic on underflow made explicit via `Option`),
and fallible operations return `Option`/`Except`.  `f32` quantities that
the claims treat arithmetically (times in seconds, audio samples) are
modelled as exact rationals.
-/

namespace Blobfish

/-- Constant from `src/bfsrv/src/infsrv_pool.rs`: `MAX_SEGMENT_DURATION: f32 = 30.0`. -/
def MAX_SEGMENT_DURATION : ℚ := 30

/-- Constant from `src/bfsrv/src/infsrv_pool.rs`: `SAMPLE_RATE: f32 = 16000.0`. -/
def SAMPLE_RATE : ℚ := 16000

/-- Constant from `src/bfsrv/src/server/transcribe.rs`:
`RING_BUFFER_CAPACITY: usize = (MAX_SEGMENT_DURATION * SAMPLE_RATE) as usize`. -/
def RING_BUFFER_CAPACITY : ℕ := (⌊MAX_SEGMENT_DURATION * SAMPLE_RATE⌋).toNat

theorem ring_buffer_capacity_eq : RING_BUFFER_CAPACITY = 480000 := by
  norm_num [RING_BUFFER_CAPACITY, MAX_SEGMENT_DURATION, SAMPLE_RATE]
  rfl

/-- Embedding of `struct RingBuffer` from `src/bfsrv/src/server/transcribe.rs`.
The `VecDeque<i16>` becomes a list of integers, oldest sample first.  The
deque's allocation capacity (Rust `self.deque.capacity()`, fixed by
`VecDeque::with_capacity` and never grown because `push` evicts before the
deque is over capacity) is carried as the `capacity` field; the allocation
is modelled as exactly the requested size. -/
structure RingBuffer where
  sampleRate : ℚ
  deque : List ℤ
  capacity : ℕ
  pushed : ℕ
  deriving DecidableEq

/-- Embedding of `RingBuffer::with_capacity`. -/
def RingBuffer.withCapacity (sampleRate : ℚ) (capacity : ℕ) : RingBuffer :=
  { sampleRate := sampleRate, deque := [], capacity := capacity, pushed := 0 }

/-- Embedding of `RingBuffer::push`: evict the front sample when the deque is
at capacity, append the new sample at the back, increment `pushed`. -/
def RingBuffer.push (rb : RingBuffer) (sample : ℤ) : RingBuffer :=
  { rb with
    deque := (if rb.deque.length = rb.capacity then rb.deque.tail else rb.deque) ++ [sample],
    pushed := rb.pushed + 1 }

theorem push_deque (rb : RingBuffer) (x : ℤ) :
    (rb.push x).deque =
      (if rb.deque.length = rb.capacity then rb.deque.tail else rb.deque) ++ [x] := rfl

theorem push_pushed (rb : RingBuffer) (x : ℤ) : (rb.push x).pushed = rb.pushed + 1 := rfl

/-- A sequence of `RingBuffer::push` calls, oldest call first. -/
def RingBuffer.pushAll (rb : RingBuffer) (samples : List ℤ) : RingBuffer :=
  samples.foldl RingBuffer.push rb

theorem pushAll_append (rb : RingBuffer) (xs : List ℤ) (x : ℤ) :
    rb.pushAll (xs ++ [x]) = (rb.pushAll xs).push x := by
  simp [RingBuffer.pushAll]

theorem pushAll_sampleRate (rb : RingBuffer) (xs : List ℤ) :
    (rb.pushAll xs).sampleRate = rb.sampleRate := by
  induction xs generalizing rb with
  | nil => rfl
  | cons x xs ih => simpa [RingBuffer.pushAll, RingBuffer.push] using ih (rb.push x)

theorem pushAll_capacity (rb : RingBuffer) (xs : List ℤ) :
    (rb.pushAll xs).capacity = rb.capacity := by
  induction xs generalizing rb with
  | nil => rfl
  | cons x xs ih => simpa [RingBuffer.pushAll, RingBuffer.push] using ih (rb.push x)

/-- Characterization of a ring buffer built by pushing the sample list `xs`
into a fresh buffer of positive capacity `c`: the deque holds the last
`min (xs.length) c` samples of `xs` and `pushed` counts all of them. -/
theorem pushAll_characterize (r : ℚ) (c : ℕ) (hc : 0 < c) (xs : List ℤ) :
    ((RingBuffer.withCapacity r c).pushAll xs).deque = xs.drop (xs.length - c) ∧
      ((RingBuffer.withCapacity r c).pushAll xs).pushed = xs.length := by
  induction xs using List.reverseRecOn with
  | nil => simp [RingBuffer.pushAll, RingBuffer.withCapacity]
  | append_singleton xs x ih =>
    obtain ⟨hdeq, hpush⟩ := ih
    rw [pushAll_append]
    refine ⟨?_, by rw [push_pushed, hpush]; simp⟩
    rw [push_deque, pushAll_capacity, hdeq]
    by_cases hlen : xs.length < c
    · rw [if_neg (by simp [RingBuffer.withCapacity]; omega)]
      have h1 : xs.length - c = 0 := by omega
      have h2 : (xs ++ [x]).length - c = 0 := by simp; omega
      rw [h1, h2, List.drop_zero, List.drop_zero]
    · rw [if_pos (by simp [RingBuffer.withCapacity]; omega)]
      have h1 : (xs ++ [x]).length - c = xs.length - c + 1 := by simp; omega
      rw [List.tail_drop, h1, List.drop_append_of_le_length (by omega)]

/-- Little-endian bytes of an unsigned 16-bit value. -/
def u16le (n : ℕ) : List ℕ := [n % 256, n / 256 % 256]

/-- Little-endian bytes of an unsigned 32-bit value. -/
def u32le (n : ℕ) : List ℕ := [n % 256, n / 256 % 256, n / 2 ^ 16 % 256, n / 2 ^ 24 % 256]

/-- Embedding of `i16::to_le_bytes`: two's-complement little-endian bytes of a
16-bit sample. -/
def i16le (s : ℤ) : List ℕ := u16le (s % 65536).toNat

/-- Modelled from the hound crate (`WavWriter::new` on a `WavSpec` with one
channel, 16 bits per sample, integer format, plus `finalize`): the 44-byte
RIFF/WAVE header written in front of `numSamples` 16-bit samples.  Layout:
"RIFF", riff chunk size, "WAVE", "fmt ", fmt chunk size 16, PCM format 1,
1 channel, sample rate, byte rate, block align 2, 16 bits, "data", data size. -/
def wavHeader (sampleRate : ℕ) (numSamples : ℕ) : List ℕ :=
  [82, 73, 70, 70] ++ u32le (36 + 2 * numSamples) ++
  [87, 65, 86, 69] ++ [102, 109, 116, 32] ++ u32le 16 ++
  u16le 1 ++ u16le 1 ++ u32le sampleRate ++ u32le (2 * sampleRate) ++
  u16le 2 ++ u16le 16 ++
  [100, 97, 116, 97] ++ u32le (2 * numSamples)

theorem wavHeader_length (sr n : ℕ) : (wavHeader sr n).length = 44 := by
  simp [wavHeader, u32le, u16le]

/-- Embedding of the `get_index` closure inside
`RingBuffer::extract_time_interval_wav`:
`(((time * self.sample_rate) as usize).max(frame_offset) - frame_offset).min(self.deque.len() - 1)`
with `frame_offset = self.pushed - self.deque.len()`.  The saturating
f32-to-usize cast is `⌊·⌋.toNat` (negative values clamp to zero, others
truncate).  The `max` guarantees the middle subtraction cannot underflow;
`self.deque.len() - 1` is Nat subtraction here, and the underflow it causes
on an empty deque is surfaced in `extractTimeIntervalWav` below. -/
def RingBuffer.getIndex (rb : RingBuffer) (time : ℚ) : ℕ :=
  min (max (⌊time * rb.sampleRate⌋.toNat) (rb.pushed - rb.deque.length) -
        (rb.pushed - rb.deque.length))
      (rb.deque.length - 1)

/-- Embedding of `RingBuffer::extract_time_interval_wav`.  The two spots where
the Rust arithmetic underflows, panicking under debug assertions — namely
`self.deque.len() - 1` when the deque is empty and
`end_index - begin_index` when the clamped begin index exceeds the clamped
end index — are surfaced as `none`.  Otherwise the result is the hound
writer's output: the 44-byte header followed by the little-endian bytes of
`deque[begin_index..end_index]`; the source asserts
`data.len() == capacity` where `capacity = 44 + (end_index - begin_index) * 2`. -/
def RingBuffer.extractTimeIntervalWav (rb : RingBuffer) (b e : ℚ) : Option (List ℕ) :=
  if rb.deque.length = 0 then none
  else
    let beginIndex := rb.getIndex b
    let endIndex := rb.getIndex e
    if endIndex < beginIndex then none
    else
      some (wavHeader (⌊rb.sampleRate⌋.toNat) (endIndex - beginIndex) ++
        ((rb.deque.drop beginIndex).take (endIndex - beginIndex)).flatMap i16le)

/-- State-passing form of `RingBuffer::extract_time_interval_wav`.  The Rust
method borrows `&self` immutably; the first component records the buffer
state after the call, rebuilt from the fields the method can read. -/
def RingBuffer.extractFull (rb : RingBuffer) (b e : ℚ) : RingBuffer × Option (List ℕ) :=
  ({ sampleRate := rb.sampleRate, deque := rb.deque, capacity := rb.capacity,
     pushed := rb.pushed },
   rb.extractTimeIntervalWav b e)

/-- State of the session ring buffer after a sequence of pushes into the
buffer created in `ws_callback`:
`RingBuffer::with_capacity(SAMPLE_RATE, RING_BUFFER_CAPACITY)`. -/
def ringAfter (xs : List ℤ) : RingBuffer :=
  (RingBuffer.withCapacity SAMPLE_RATE RING_BUFFER_CAPACITY).pushAll xs

theorem flatMap_i16le_length (l : List ℤ) : (l.flatMap i16le).length = 2 * l.length := by
  induction l with
  | nil => simp
  | cons x xs ih => simp [i16le, u16le] at ih ⊢; omega

/-- C7: after any sequence of pushes into a ring buffer created with capacity
480000, `len ≤ capacity` and `pushed ≥ len` hold; once the buffer is full a
push removes exactly the oldest sample (the deque becomes its tail plus the
new sample, its length stays at capacity, `pushed` increments by one); and
the sample at logical index `i` (0-based from the oldest retained) is the
`(pushed − len + i)`-th sample ever pushed, i.e. the one pushed at time
`(pushed − len + i) / rate` seconds. -/
theorem C7_ring_buffer_push_invariants (xs : List ℤ) :
    (ringAfter xs).deque.length ≤ RING_BUFFER_CAPACITY ∧
    (ringAfter xs).deque.length ≤ (ringAfter xs).pushed ∧
    ((ringAfter xs).deque.length = RING_BUFFER_CAPACITY → ∀ s : ℤ,
      ((ringAfter xs).push s).deque = (ringAfter xs).deque.tail ++ [s] ∧
      ((ringAfter xs).push s).deque.length = RING_BUFFER_CAPACITY ∧
      ((ringAfter xs).push s).pushed = (ringAfter xs).pushed + 1) ∧
    (∀ i : ℕ, i < (ringAfter xs).deque.length →
      (ringAfter xs).deque[i]? =
        xs[(ringAfter xs).pushed - (ringAfter xs).deque.length + i]?) := by
  have hc : 0 < RING_BUFFER_CAPACITY := by rw [ring_buffer_capacity_eq]; omega
  obtain ⟨hdeq, hpush⟩ :=
    pushAll_characterize SAMPLE_RATE RING_BUFFER_CAPACITY hc xs
  have hdeq' : (ringAfter xs).deque = xs.drop (xs.length - RING_BUFFER_CAPACITY) := hdeq
  have hpush' : (ringAfter xs).pushed = xs.length := hpush
  have hcap : (ringAfter xs).capacity = RING_BUFFER_CAPACITY :=
    pushAll_capacity (RingBuffer.withCapacity SAMPLE_RATE RING_BUFFER_CAPACITY) xs
  have hdl : (ringAfter xs).deque.length = xs.length - (xs.length - RING_BUFFER_CAPACITY) := by
    rw [hdeq']; simp
  refine ⟨by omega, by omega, ?_, ?_⟩
  · intro hfull s
    refine ⟨?_, ?_, push_pushed _ s⟩
    · rw [push_deque, if_pos (by rw [hcap]; exact hfull)]
    · rw [push_deque, if_pos (by rw [hcap]; exact hfull)]
      have hne : (ringAfter xs).deque ≠ [] := by
        intro h
        rw [h] at hfull
        simp at hfull
        omega
      simp [List.length_tail]
      omega
  · intro i hi
    have hdl2 : (xs.drop (xs.length - RING_BUFFER_CAPACITY)).length =
        xs.length - (xs.length - RING_BUFFER_CAPACITY) := by simp
    rw [hdeq', List.getElem?_drop]
    congr 1
    omega

theorem C7_ring_buffer_push_invariants_witness :
    1 < (ringAfter [3, 1, 4]).deque.length ∧
      (ringAfter [3, 1, 4]).deque[1]? =
        [(3 : ℤ), 1, 4][(ringAfter [3, 1, 4]).pushed - (ringAfter [3, 1, 4]).deque.length + 1]? :=
  ⟨by simp [ringAfter, RingBuffer.pushAll, RingBuffer.withCapacity, RingBuffer.push,
      ring_buffer_capacity_eq],
   (C7_ring_buffer_push_invariants [3, 1, 4]).2.2.2 1
     (by simp [ringAfter, RingBuffer.pushAll, RingBuffer.withCapacity, RingBuffer.push,
       ring_buffer_capacity_eq])⟩

/-- C2 (amended): on a ring buffer holding at least one sample, whenever the
clamped begin index does not exceed the clamped end index (in particular
whenever `begin_s ≤ end_s`, since clamping is monotone for a non-negative
sample rate), both clamped endpoints are indices in `[0, len)`, the
extraction succeeds, the blob's byte length is
`44 + 2·(end_index − begin_index)` (the pre-computed capacity checked by the
source's `assert_eq`), and if the clamped indices coincide the blob is the
header-only empty clip.  The unamended claim ("for every pair of times")
fails: see the counterexample, where the subtraction
`end_index - begin_index` underflows and the call panics instead of
returning a 44-byte blob. -/
theorem C2_extract_wav_clamped_length (rb : RingBuffer) (b e : ℚ)
    (hlen : 0 < rb.deque.length) (hbe : rb.getIndex b ≤ rb.getIndex e) :
    rb.getIndex b < rb.deque.length ∧ rb.getIndex e < rb.deque.length ∧
    (0 ≤ rb.sampleRate → ∀ t u : ℚ, t ≤ u → rb.getIndex t ≤ rb.getIndex u) ∧
    ∃ blob, rb.extractTimeIntervalWav b e = some blob ∧
      blob.length = 44 + 2 * (rb.getIndex e - rb.getIndex b) ∧
      (rb.getIndex e ≤ rb.getIndex b → blob = wavHeader (⌊rb.sampleRate⌋.toNat) 0) := by
  have hb : rb.getIndex b ≤ rb.deque.length - 1 := min_le_right _ _
  have he : rb.getIndex e ≤ rb.deque.length - 1 := min_le_right _ _
  refine ⟨by omega, by omega, ?_, ?_⟩
  · intro hr t u htu
    have hfl : ⌊t * rb.sampleRate⌋.toNat ≤ ⌊u * rb.sampleRate⌋.toNat :=
      Int.toNat_le_toNat (Int.floor_le_floor (mul_le_mul_of_nonneg_right htu hr))
    unfold RingBuffer.getIndex
    omega
  · refine ⟨wavHeader (⌊rb.sampleRate⌋.toNat) (rb.getIndex e - rb.getIndex b) ++
      ((rb.deque.drop (rb.getIndex b)).take (rb.getIndex e - rb.getIndex b)).flatMap i16le,
      ?_, ?_, ?_⟩
    · rw [RingBuffer.extractTimeIntervalWav, if_neg (by omega)]
      simp only [if_neg (by omega : ¬ rb.getIndex e < rb.getIndex b)]
    · rw [List.length_append, wavHeader_length, flatMap_i16le_length, List.length_take,
        List.length_drop]
      omega
    · intro hle
      have heq : rb.getIndex e - rb.getIndex b = 0 := by omega
      rw [heq]
      simp

theorem C2_extract_wav_clamped_length_witness :
    ∃ blob,
      RingBuffer.extractTimeIntervalWav ⟨16000, [5, 6, 7], 480000, 3⟩ 0 1 = some blob ∧
        blob.length = 48 := by
  obtain ⟨-, -, -, blob, hblob, hlength, -⟩ :=
    C2_extract_wav_clamped_length ⟨16000, [5, 6, 7], 480000, 3⟩ 0 1 (by simp)
      (by norm_num [RingBuffer.getIndex])
  exact ⟨blob, hblob, hlength.trans (by norm_num [RingBuffer.getIndex])⟩

/-- C2 counterexample: with two retained samples at rate 16000 and the time
pair `(begin_s, end_s) = (1, 0)`, the clamped begin index is 1 and the
clamped end index is 0, so `end_index - begin_index` underflows and
`extract_time_interval_wav` panics (no blob is produced), while the claim
asserts that in all cases a blob of byte length
`44 + 2·max(0, clamp(end) − clamp(begin)) = 44` is returned. -/
theorem C2_counterexample_underflow :
    RingBuffer.extractTimeIntervalWav
      { sampleRate := 16000, deque := [5, 6], capacity := 480000, pushed := 2 } 1 0 =
      none := by
  norm_num [RingBuffer.extractTimeIntervalWav, RingBuffer.getIndex]

/-- C10: extraction takes the ring buffer by shared reference and mutates
nothing: the state after `extract_time_interval_wav` equals the state before
— same retained sample sequence, same `pushed` counter, same sample rate —
and a second extraction with the same arguments and no interleaving push
returns exactly the same bytes. -/
theorem C10_extract_leaves_buffer_unchanged (rb : RingBuffer) (b e : ℚ) :
    (rb.extractFull b e).1 = rb ∧
    (rb.extractFull b e).1.deque = rb.deque ∧
    (rb.extractFull b e).1.pushed = rb.pushed ∧
    (rb.extractFull b e).1.sampleRate = rb.sampleRate ∧
    ((rb.extractFull b e).1.extractFull b e).2 = (rb.extractFull b e).2 := by
  obtain ⟨r, d, c, p⟩ := rb
  exact ⟨rfl, rfl, rfl, rfl, rfl⟩

/-- One step of the streaming mono-mix update in
`AudioStreamProcessor::merge_channels`:
`*m += (*s - *m) / (i + 1) as f32` for channel index `i` (0-based),
modelled on exact rationals. -/
def mergeStep (i : ℕ) (m s : ℚ) : ℚ := m + (s - m) / ((i : ℚ) + 1)

/-- The value accumulated at a single output position by successive channels:
fold `mergeStep` over the per-channel samples at that position, starting at
running value `m` and channel index `i`. -/
def mergeFold (m : ℚ) (i : ℕ) : List ℚ → ℚ
  | [] => m
  | s :: rest => mergeFold (mergeStep i m s) (i + 1) rest

/-- Embedding of one iteration of the channel loop in
`AudioStreamProcessor::merge_channels`: the zip of the mutable region with
channel `i` updates the first `min` of the two lengths positions in place
and leaves the rest of the region unchanged. -/
def mergeChanInto (region : List ℚ) (i : ℕ) (chan : List ℚ) : List ℚ :=
  region.zipWith (fun m s => mergeStep i m s) chan ++ region.drop chan.length

/-- Embedding of `AudioStreamProcessor::merge_channels`: `resize` appends
`frames` zeroes after the existing `merged` data (the subsequent `fill`
re-zeroes the same region), then each channel `i` of the decoded buffer is
mixed into the new region with the streaming update. -/
def mergeChannels (merged : List ℚ) (frames : ℕ) (chans : List (List ℚ)) : List ℚ :=
  merged ++
    chans.enum.foldl (fun region ic => mergeChanInto region ic.1 ic.2)
      (List.replicate frames 0)

theorem mergeFold_eq (l : List ℚ) : ∀ (i : ℕ) (m : ℚ), 1 ≤ i + l.length →
    mergeFold m i l = ((i : ℚ) * m + l.sum) / ((i : ℚ) + (l.length : ℚ)) := by
  induction l with
  | nil =>
    intro i m hi
    have hne : (i : ℚ) ≠ 0 := by
      have h1 : 1 ≤ i := by simpa using hi
      exact_mod_cast Nat.pos_iff_ne_zero.mp h1
    simp [mergeFold]
    field_simp
  | cons s rest ih =>
    intro i m _
    rw [mergeFold, ih (i + 1) _ (by omega), mergeStep]
    have hne : ((i : ℚ) + 1) ≠ 0 := by positivity
    push_cast
    field_simp
    ring

theorem mergeChanInto_length (region : List ℚ) (i : ℕ) (chan : List ℚ) :
    (mergeChanInto region i chan).length = region.length := by
  simp [mergeChanInto]
  omega

theorem mergeChanInto_getD (region : List ℚ) (i : ℕ) (chan : List ℚ) (j : ℕ)
    (hr : j < region.length) (hc : j < chan.length) :
    (mergeChanInto region i chan).getD j 0 =
      mergeStep i (region.getD j 0) (chan.getD j 0) := by
  have hz : j < (region.zipWith (fun m s => mergeStep i m s) chan).length := by
    simp
    omega
  rw [mergeChanInto, List.getD_append _ _ _ _ hz]
  rw [List.getD_eq_getElem _ _ hz, List.getElem_zipWith,
    List.getD_eq_getElem _ _ hr, List.getD_eq_getElem _ _ hc]

theorem mergeLoop_getD (chans : List (List ℚ)) : ∀ (i0 : ℕ) (region : List ℚ),
    (∀ ch ∈ chans, ch.length = region.length) → ∀ j, j < region.length →
    (((chans.enumFrom i0).foldl (fun region ic => mergeChanInto region ic.1 ic.2)
        region).getD j 0) =
      mergeFold (region.getD j 0) i0 (chans.map (fun ch => ch.getD j 0)) := by
  induction chans with
  | nil => intro i0 region _ j _; simp [mergeFold]
  | cons ch rest ih =>
    intro i0 region hlen j hj
    have hch : ch.length = region.length := hlen ch (by simp)
    have hrest : ∀ ch' ∈ rest, ch'.length = (mergeChanInto region i0 ch).length := by
      intro ch' h
      rw [mergeChanInto_length]
      exact hlen ch' (by simp [h])
    have hj' : j < (mergeChanInto region i0 ch).length := by
      rw [mergeChanInto_length]; exact hj
    calc ((((ch :: rest).enumFrom i0).foldl
            (fun region ic => mergeChanInto region ic.1 ic.2) region).getD j 0)
        = (((rest.enumFrom (i0 + 1)).foldl
            (fun region ic => mergeChanInto region ic.1 ic.2)
            (mergeChanInto region i0 ch)).getD j 0) := by
          simp [List.enumFrom]
      _ = mergeFold ((mergeChanInto region i0 ch).getD j 0) (i0 + 1)
            (rest.map (fun ch' => ch'.getD j 0)) := ih (i0 + 1) _ hrest j hj'
      _ = mergeFold (region.getD j 0) i0 (((ch :: rest)).map (fun ch' => ch'.getD j 0)) := by
          rw [mergeChanInto_getD region i0 ch j hj (by omega)]
          simp [mergeFold]

/-- C9: for a decoded audio buffer with `C ≥ 1` channels, the per-channel
streaming update `m ← m + (s − m)/(i+1)`, applied for channels
`i = 0 .. C−1` starting from the zero the region was filled with, leaves
every output position equal to the arithmetic mean `(1/C)·Σ` of that frame's
samples across the `C` channels — no final division pass occurs. -/
theorem C9_merge_channels_mean (merged : List ℚ) (frames : ℕ) (chans : List (List ℚ))
    (hC : 1 ≤ chans.length) (hlen : ∀ ch ∈ chans, ch.length = frames)
    (j : ℕ) (hj : j < frames) :
    (mergeChannels merged frames chans).getD (merged.length + j) 0 =
      (chans.map (fun ch => ch.getD j 0)).sum / (chans.length : ℚ) := by
  have hrep : ∀ ch ∈ chans, ch.length = (List.replicate frames (0 : ℚ)).length := by
    intro ch h
    rw [List.length_replicate]
    exact hlen ch h
  have hj' : j < (List.replicate frames (0 : ℚ)).length := by
    rw [List.length_replicate]; exact hj
  have henum : chans.enum = chans.enumFrom 0 := rfl
  rw [mergeChannels, henum, List.getD_append_right _ _ _ _ (by omega)]
  have hidx : merged.length + j - merged.length = j := by omega
  rw [hidx, mergeLoop_getD chans 0 (List.replicate frames 0) hrep j hj']
  rw [mergeFold_eq _ 0 _ (by simp; omega)]
  simp [List.getElem?_getD_replicate_default_eq]

theorem C9_merge_channels_mean_witness :
    (mergeChannels [] 1 [[1], [3]]).getD 0 0 = 2 := by
  have h := C9_merge_channels_mean [] 1 [[1], [3]] (by simp) (by simp) 0 (by simp)
  norm_num at h
  exact h

/-- Embedding of the head-room computation at the top of the chunk loop in
`AudioStreamProcessor::process_audio_buffer`:
`(RING_BUFFER_CAPACITY - (pushed - *frames_consumed)).min(self.resampled.len() - offset)`. -/
def chunkLen (pushed framesConsumed remaining : ℕ) : ℕ :=
  min (RING_BUFFER_CAPACITY - (pushed - framesConsumed)) remaining

/-- The meter state shared between the audio producer
(`process_audio_buffer`) and the segment dispatcher (`process_segments`):
the ring buffer's lifetime `pushed` counter and the producer's local
`frames_consumed` watermark. -/
structure MeterState where
  pushed : ℕ
  framesConsumed : ℕ

/-- Interleaved atomic steps of the producer loop and of the watermark
updates it performs.  `push`: the producer appends exactly one chunk whose
length is the `chunk_len` head-room bound (when the head-room is zero this
pushes nothing — the task instead suspends on the meter channel).
`consume`: after receiving `time_consumed` on the meter channel the producer
sets `frames_consumed = (time_consumed * SAMPLE_RATE) as usize`; the
dispatcher only advances the watermark, so the new value is no smaller. -/
inductive MeterStep : MeterState → MeterState → Prop
  | push (s : MeterState) (remaining : ℕ) :
      MeterStep s ⟨s.pushed + chunkLen s.pushed s.framesConsumed remaining, s.framesConsumed⟩
  | consume (s : MeterState) (t : ℚ)
      (h : s.framesConsumed ≤ (⌊t * SAMPLE_RATE⌋).toNat) :
      MeterStep s ⟨s.pushed, (⌊t * SAMPLE_RATE⌋).toNat⟩

theorem meterStep_preserves (s s' : MeterState) (hstep : MeterStep s s')
    (hinv : s.pushed - s.framesConsumed ≤ RING_BUFFER_CAPACITY) :
    s'.pushed - s'.framesConsumed ≤ RING_BUFFER_CAPACITY := by
  cases hstep with
  | push remaining =>
    have hbound : chunkLen s.pushed s.framesConsumed remaining ≤
        RING_BUFFER_CAPACITY - (s.pushed - s.framesConsumed) := min_le_left _ _
    show s.pushed + chunkLen s.pushed s.framesConsumed remaining - s.framesConsumed ≤ _
    omega
  | consume t hmono =>
    show s.pushed - (⌊t * SAMPLE_RATE⌋).toNat ≤ _
    omega

/-- C6: along every interleaving of producer chunk-pushes and dispatcher
watermark advances starting from the session's initial state, the number of
samples pushed minus the `frames_consumed` watermark never exceeds the ring
buffer capacity `30 s × 16000 = 480000` samples; the producer only ever
pushes a slice bounded by the available head-room, and when the head-room is
zero the admissible chunk is empty (the producer suspends on the meter
channel instead of pushing). -/
theorem C6_pushed_minus_consumed_bounded (s : MeterState)
    (h : Relation.ReflTransGen MeterStep ⟨0, 0⟩ s) :
    s.pushed - s.framesConsumed ≤ RING_BUFFER_CAPACITY ∧
    RING_BUFFER_CAPACITY = 30 * 16000 ∧
    (∀ p c r, chunkLen p c r ≤ RING_BUFFER_CAPACITY - (p - c)) ∧
    (∀ p c r, p - c = RING_BUFFER_CAPACITY → chunkLen p c r = 0) := by
  refine ⟨?_, by rw [ring_buffer_capacity_eq], fun p c r => min_le_left _ _, ?_⟩
  · induction h with
    | refl => simp
    | tail hsteps step ih => exact meterStep_preserves _ _ step ih
  · intro p c r hfull
    rw [chunkLen, hfull]
    simp

theorem C6_pushed_minus_consumed_bounded_witness :
    (MeterState.mk (0 + chunkLen 0 0 5) 0).pushed -
        (MeterState.mk (0 + chunkLen 0 0 5) 0).framesConsumed ≤ RING_BUFFER_CAPACITY :=
  (C6_pushed_minus_consumed_bounded _
    (Relation.ReflTransGen.single (MeterStep.push ⟨0, 0⟩ 5))).1

/-- Embedding of `SegmentItem` from `src/bfsrv/src/infsrv_pool.rs`. -/
inductive SegmentItem
  | speech (beginTime endTime : ℚ)
  | void (beginTime endTime : ℚ)
  deriving DecidableEq

def SegmentItem.isSpeech : SegmentItem → Bool
  | .speech _ _ => true
  | .void _ _ => false

def SegmentItem.endTime : SegmentItem → ℚ
  | .speech _ e => e
  | .void _ e => e

/-- Embedding of `TranscribeItem` from `src/bfsrv/src/server/transcribe.rs`:
the record serialized to the client, carrying the upstream segment's begin
and end and the transcriber's text. -/
structure TranscribeItem where
  beginTime : ℚ
  endTime : ℚ
  text : String
  deriving DecidableEq

/-- Observable output of the dispatcher loop: records sent to the client and
watermark values sent on the meter (`limit`) channel, in order. -/
structure DispatchOut where
  records : List TranscribeItem
  limitSends : List ℚ
  deriving DecidableEq

/-- Embedding of the `process_segments` loop from
`src/bfsrv/src/server/transcribe.rs`.  Per segment item: a `Void` only sends
its `end` on the meter channel; a `Speech` extracts the interval's WAV blob
from the ring buffer, sends `end` on the meter channel, calls the
transcriber with the blob and the previous item's text as prompt, and on
success emits one record carrying the upstream `begin`/`end` and the new
text, which also becomes the next prompt.  The transcriber
(`infsrv_pool.transcribe`, a remote call) is abstracted as the oracle `tr`;
`tr … = none` models a transcription error, which breaks the loop.  Channel
sends are modelled as succeeding (a failed send in the source only ends the
loop earlier), and a panic inside `extract_time_interval_wav` ends the task
with nothing further emitted. -/
def processSegments (tr : List ℕ → Option String → Option String) (rb : RingBuffer) :
    List SegmentItem → Option TranscribeItem → DispatchOut
  | [], _ => ⟨[], []⟩
  | .void _ e :: rest, item =>
      let out := processSegments tr rb rest item
      ⟨out.records, e :: out.limitSends⟩
  | .speech b e :: rest, item =>
      match rb.extractTimeIntervalWav b e with
      | none => ⟨[], []⟩
      | some blob =>
        match tr blob (item.map (·.text)) with
        | none => ⟨[], [e]⟩
        | some text =>
          let out := processSegments tr rb rest (some ⟨b, e, text⟩)
          ⟨⟨b, e, text⟩ :: out.records, e :: out.limitSends⟩

/-- C8: for every sequence of segment items consumed by the dispatcher, no
client record is emitted for a `Void` item — an all-void input yields no
records and only advances the meter watermark to each void's `end` — each
`Speech` item produces at most one record (the record count is bounded by
the number of speech items), every emitted record's `(begin, end)` pair is
exactly the `(begin, end)` of some upstream `Speech` item, and therefore
`begin ≤ end` holds for every record whenever it held upstream. -/
theorem C8_dispatcher_records (tr : List ℕ → Option String → Option String)
    (rb : RingBuffer) (items : List SegmentItem) (item0 : Option TranscribeItem) :
    (∀ r ∈ (processSegments tr rb items item0).records,
      SegmentItem.speech r.beginTime r.endTime ∈ items) ∧
    (processSegments tr rb items item0).records.length ≤
      (items.filter SegmentItem.isSpeech).length ∧
    ((∀ it ∈ items, it.isSpeech = false) →
      (processSegments tr rb items item0).records = [] ∧
      (processSegments tr rb items item0).limitSends = items.map SegmentItem.endTime) ∧
    ((∀ b e : ℚ, SegmentItem.speech b e ∈ items → b ≤ e) →
      ∀ r ∈ (processSegments tr rb items item0).records, r.beginTime ≤ r.endTime) := by
  induction items generalizing item0 with
  | nil => simp [processSegments]
  | cons it rest ih =>
    cases it with
    | void b e =>
      obtain ⟨ih1, ih2, ih3, _⟩ := ih item0
      refine ⟨?_, ?_, ?_, ?_⟩
      · intro r hr
        simp only [processSegments] at hr
        exact List.mem_cons_of_mem _ (ih1 r hr)
      · simpa [processSegments, SegmentItem.isSpeech] using ih2
      · intro hall
        obtain ⟨h1, h2⟩ := ih3 (fun x hx => hall x (List.mem_cons_of_mem _ hx))
        simp [processSegments, h1, h2, SegmentItem.endTime]
      · intro hle r hr
        simp only [processSegments] at hr
        have hmem := ih1 r hr
        have : SegmentItem.speech r.beginTime r.endTime ∈ SegmentItem.void b e :: rest :=
          List.mem_cons_of_mem _ hmem
        exact hle _ _ this
    | speech b e =>
      refine ⟨?_, ?_, ?_, ?_⟩
      · intro r hr
        cases hx : rb.extractTimeIntervalWav b e with
        | none => simp only [processSegments, hx] at hr; simp at hr
        | some blob =>
          cases ht : tr blob (item0.map (·.text)) with
          | none => simp only [processSegments, hx, ht] at hr; simp at hr
          | some text =>
            simp only [processSegments, hx, ht, List.mem_cons] at hr
            simp only [List.mem_cons]
            rcases hr with hr | hr
            · left; rw [hr]
            · right
              exact (ih (some ⟨b, e, text⟩)).1 r hr
      · cases hx : rb.extractTimeIntervalWav b e with
        | none => simp [processSegments, hx]
        | some blob =>
          cases ht : tr blob (item0.map (·.text)) with
          | none => simp [processSegments, hx, ht]
          | some text =>
            have hlen := (ih (some ⟨b, e, text⟩)).2.1
            simp only [processSegments, hx, ht, List.length_cons, List.filter,
              SegmentItem.isSpeech]
            omega
      · intro hall
        have hsp : (SegmentItem.speech b e).isSpeech = false := hall _ (by simp)
        simp [SegmentItem.isSpeech] at hsp
      · intro hle r hr
        cases hx : rb.extractTimeIntervalWav b e with
        | none => simp only [processSegments, hx] at hr; simp at hr
        | some blob =>
          cases ht : tr blob (item0.map (·.text)) with
          | none => simp only [processSegments, hx, ht] at hr; simp at hr
          | some text =>
            simp only [processSegments, hx, ht, List.mem_cons] at hr
            rcases hr with hr | hr
            · rw [hr]
              exact hle b e (by simp)
            · have hmem := (ih (some ⟨b, e, text⟩)).1 r hr
              exact hle _ _ (List.mem_cons_of_mem _ hmem)

theorem C8_dispatcher_records_witness :
    (processSegments (fun _ _ => some "t") ⟨16000, [5], 480000, 1⟩
        [SegmentItem.void 0 1] none).records = [] ∧
      (processSegments (fun _ _ => some "t") ⟨16000, [5], 480000, 1⟩
        [SegmentItem.void 0 1] none).limitSends =
        [SegmentItem.void 0 1].map SegmentItem.endTime :=
  (C8_dispatcher_records (fun _ _ => some "t") ⟨16000, [5], 480000, 1⟩
      [SegmentItem.void 0 1] none).2.2.1 (by
    intro it hit
    simp only [List.mem_singleton] at hit
    rw [hit]
    rfl)

/-- Embedding of the saturating Rust `as` cast from f32 to a 16-bit integer
(used as `(*f32_sample * i16::MAX as f32) as i16`): truncate toward zero and
clamp into `[-32768, 32767]`. -/
def f32ToI16 (q : ℚ) : ℤ :=
  max (-32768) (min 32767 (if 0 ≤ q * 32767 then ⌊q * 32767⌋ else ⌈q * 32767⌉))

/-- The pcm message built for one admissible chunk in
`process_audio_buffer`: each f32 sample converted to i16 and appended as its
two little-endian bytes. -/
def pcmBytes (chunk : List ℚ) : List ℕ :=
  chunk.flatMap (fun s => i16le (f32ToI16 s))

/-- Result of the metered chunk loop: messages sent to the segmenter, the
ring buffer and `frames_consumed` after the loop, and the meter values not
yet received. -/
structure MeterOut where
  sends : List (List ℕ)
  rb : RingBuffer
  framesConsumed : ℕ
  limits : List ℚ

/-- Embedding of the metered `while offset < self.resampled.len()` loop in
`AudioStreamProcessor::process_audio_buffer`: each round recomputes
`chunk_len` from the current head-room; a zero chunk receives the next
value from the meter channel and sets
`frames_consumed = (time_consumed * SAMPLE_RATE) as usize` (an exhausted
channel makes the function return `false`, modelled `none`); a non-zero
chunk is converted to i16, pushed sample-by-sample into the ring buffer
under one mutex guard, sent as one pcm message, and consumed from
`resampled`. -/
def meterLoop (rb : RingBuffer) (framesConsumed : ℕ) (limits : List ℚ)
    (resampled : List ℚ) : Option MeterOut :=
  if resampled.length = 0 then some ⟨[], rb, framesConsumed, limits⟩
  else
    if hk : chunkLen rb.pushed framesConsumed resampled.length = 0 then
      match limits with
      | [] => none
      | t :: rest => meterLoop rb ((⌊t * SAMPLE_RATE⌋).toNat) rest resampled
    else
      let k := chunkLen rb.pushed framesConsumed resampled.length
      match meterLoop ((resampled.take k).foldl (fun b s => b.push (f32ToI16 s)) rb)
          framesConsumed limits (resampled.drop k) with
      | none => none
      | some out =>
        some ⟨pcmBytes (resampled.take k) :: out.sends, out.rb, out.framesConsumed, out.limits⟩
termination_by (limits.length, resampled.length)
decreasing_by
  · exact Prod.Lex.left _ _ (by simp)
  · exact Prod.Lex.right _ (by simp [chunkLen] at hk ⊢; omega)

/-- Embedding of the tail of `AudioStreamProcessor::process_audio_buffer`:
after the chunk loop, when the `terminator` argument is present (the call
site passes `terminator.as_deref().filter(|_| last)`), its bytes are sent
verbatim as one further message to the segmenter. -/
def processAudioBuffer (rb : RingBuffer) (framesConsumed : ℕ) (limits : List ℚ)
    (resampled : List ℚ) (terminator : Option (List ℕ)) : Option MeterOut :=
  match meterLoop rb framesConsumed limits resampled with
  | none => none
  | some out =>
    match terminator with
    | none => some out
    | some delim => some ⟨out.sends ++ [delim], out.rb, out.framesConsumed, out.limits⟩

/-- Client websocket messages as seen by the feed task in
`AudioStreamProcessor::create_packet_reader` (error frames are left out:
they only inject an I/O error into the packet reader). -/
inductive WsMessage
  | binary (data : List ℕ)
  | close
  | other
  deriving DecidableEq

/-- Embedding of the feed loop in
`AudioStreamProcessor::create_packet_reader`: for each binary message, when
a terminator is configured and the message's bytes end with it, the
terminator is truncated off and the loop stops after forwarding the
remainder; a close frame stops the loop; non-binary messages are ignored.
Returns the chunks fed to the ogg packet reader and whether the terminator
was detected. -/
def feedMessages (terminator : Option (List ℕ)) : List WsMessage → List (List ℕ) × Bool
  | [] => ([], false)
  | .binary data :: rest =>
    match terminator with
    | some delim =>
      if delim.isSuffixOf data then
        ([data.take (data.length - delim.length)], true)
      else
        let out := feedMessages (some delim) rest
        (data :: out.1, out.2)
    | none =>
      let out := feedMessages none rest
      (data :: out.1, out.2)
  | .close :: _ => ([], false)
  | .other :: rest => feedMessages terminator rest

/-- An ogg packet as delivered by the ogg crate's `PacketReader`: payload
bytes plus the `last_in_stream()` flag, which the ogg reader derives from
the end-of-stream flag of the packet's page header — a container-level
property that appending a websocket-level terminator does not set. -/
structure Packet where
  data : List ℕ
  lastInStream : Bool
  deriving DecidableEq

/-- Embedding of the packet loop in `AudioStreamProcessor::process`: packets
0 and 1 are the identification and comment headers and packet 2 completes
the decoder setup (none of the three produces audio); every later packet is
decoded and handed to `process_audio_buffer` together with
`terminator.as_deref().filter(|_| last)` where
`last = packet.last_in_stream()`.  Decoding (symphonia) plus mono-mix and
resampling are abstracted as the oracle `decode`; `none` models a decode
failure, which ends the loop.  Returns the messages sent to the segmenter. -/
def processLoop (decode : List ℕ → Option (List ℚ)) (terminator : Option (List ℕ))
    (rb : RingBuffer) (framesConsumed : ℕ) (limits : List ℚ) (idx : ℕ) :
    List Packet → List (List ℕ)
  | [] => []
  | pkt :: rest =>
    if idx < 3 then
      processLoop decode terminator rb framesConsumed limits (idx + 1) rest
    else
      match decode pkt.data with
      | none => []
      | some samples =>
        match processAudioBuffer rb framesConsumed limits samples
            (if pkt.lastInStream then terminator else none) with
        | none => []
        | some out =>
          out.sends ++
            processLoop decode terminator out.rb out.framesConsumed out.limits (idx + 1) rest

/-- C5 (amended): when a binary client message ends with the configured
terminator, the feed task strips the terminator byte-for-byte (the stripped
remainder plus the terminator reconstitutes the message, so no terminator
byte reaches the decoder) and stops reading further client messages; and
the terminator is forwarded to the segmenter — verbatim, as one message,
after the last PCM chunk of the frame's audio — for a frame whose decoded
ogg packet carries the container end-of-stream flag
(`packet.last_in_stream()`).  The source keys the forwarding on that flag,
not on the terminator detection; the unamended claim fails when the final
frame's packet lacks the flag (see the counterexample). -/
theorem C5_terminator_stripped_and_forwarded
    (delim data : List ℕ) (rest : List WsMessage)
    (hsuffix : delim.isSuffixOf data)
    (decode : List ℕ → Option (List ℚ)) (rb : RingBuffer) (framesConsumed : ℕ)
    (limits : List ℚ) (pkt : Packet) (hlast : pkt.lastInStream = true)
    (samples : List ℚ) (mo : MeterOut)
    (hdec : decode pkt.data = some samples)
    (hloop : meterLoop rb framesConsumed limits samples = some mo) :
    feedMessages (some delim) (WsMessage.binary data :: rest) =
      ([data.take (data.length - delim.length)], true) ∧
    data.take (data.length - delim.length) ++ delim = data ∧
    processLoop decode (some delim) rb framesConsumed limits 3 [pkt] =
      mo.sends ++ [delim] := by
  refine ⟨by simp [feedMessages, hsuffix], ?_, ?_⟩
  · have hsuf : delim <:+ data := List.isSuffixOf_iff_suffix.mp hsuffix
    obtain ⟨pre, hpre⟩ := hsuf
    have hlen : data.length - delim.length = pre.length := by
      rw [← hpre]
      simp
    rw [hlen, ← hpre, List.take_left]
  · simp [processLoop, processAudioBuffer, hdec, hloop, hlast]

theorem C5_terminator_stripped_and_forwarded_witness :
    feedMessages (some [255, 254]) [WsMessage.binary [7, 255, 254]] = ([[7]], true) ∧
    processLoop (fun _ => some []) (some [255, 254]) ⟨16000, [], 480000, 0⟩ 0 [] 3
        [⟨[9], true⟩] = [[255, 254]] := by
  obtain ⟨h1, -, h3⟩ :=
    C5_terminator_stripped_and_forwarded [255, 254] [7, 255, 254] [] (by decide)
      (fun _ => some []) ⟨16000, [], 480000, 0⟩ 0 [] ⟨[9], true⟩ rfl []
      ⟨[], ⟨16000, [], 480000, 0⟩, 0, []⟩ rfl (by simp [meterLoop])
  exact ⟨by simpa using h1, by simpa using h3⟩

/-- C5 counterexample: the client's final (and only) binary message ends with
the exact terminator `[255, 254]` and the feed side detects it, yet because
none of the stream's ogg packets carries the end-of-stream flag
(`last_in_stream() = false` — a container property the appended terminator
does not set), the audio processor forwards only the PCM chunk and never
sends the terminator to the segmenter, contradicting the claim that ending
the final message with the terminator suffices for the forwarding. -/
theorem C5_counterexample_eos_flag_controls_forwarding :
    (feedMessages (some [255, 254]) [WsMessage.binary [7, 255, 254]]).2 = true ∧
    processLoop (fun _ => some [0]) (some [255, 254])
        (RingBuffer.withCapacity SAMPLE_RATE RING_BUFFER_CAPACITY) 0 [] 0
        [⟨[9], false⟩, ⟨[9], false⟩, ⟨[9], false⟩, ⟨[7], false⟩] = [[0, 0]] ∧
    [255, 254] ∉ ([[0, 0]] : List (List ℕ)) := by
  refine ⟨by decide, ?_, by decide⟩
  have hml : meterLoop (RingBuffer.withCapacity SAMPLE_RATE RING_BUFFER_CAPACITY) 0 [] [0] =
      some ⟨[[0, 0]], ⟨SAMPLE_RATE, [0], RING_BUFFER_CAPACITY, 1⟩, 0, []⟩ := by
    rw [meterLoop.eq_def]
    norm_num [chunkLen, ring_buffer_capacity_eq, RingBuffer.withCapacity]
    rw [meterLoop.eq_def]
    norm_num [RingBuffer.push, RingBuffer.withCapacity, ring_buffer_capacity_eq,
      pcmBytes, i16le, u16le, f32ToI16]
  simp only [processLoop, processAudioBuffer, hml]
  norm_num

/-- Model of `rust_decimal::Decimal`: a sign flag, an unsigned mantissa and a
decimal scale, denoting `(-1)^neg · mantissa / 10^scale`.
`Decimal::is_sign_positive` tests only the sign flag (`flags & SIGN_MASK == 0`);
notably a positively-signed zero satisfies it. -/
structure Decimal where
  neg : Bool
  mantissa : ℕ
  scale : ℕ
  deriving DecidableEq

/-- Embedding of `rust_decimal::Decimal::is_sign_positive`. -/
def Decimal.isSignPositive (d : Decimal) : Bool := !d.neg

/-- Rational value denoted by a `Decimal`. -/
def Decimal.val (d : Decimal) : ℚ :=
  (if d.neg then -1 else 1) * (d.mantissa : ℚ) / 10 ^ d.scale

/-- Signed integer mantissa rescaled to a common scale `s ≥ scale`. -/
def Decimal.signedMantissa (d : Decimal) (s : ℕ) : ℤ :=
  (if d.neg then -1 else 1) * (d.mantissa : ℤ) * 10 ^ (s - d.scale)

/-- Model of in-range `rust_decimal` addition: rescale both operands to the
larger scale, add the signed mantissas, take the sign from the result (an
exact zero result carries the positive sign). -/
def Decimal.add (a b : Decimal) : Decimal :=
  let s := max a.scale b.scale
  let m := a.signedMantissa s + b.signedMantissa s
  ⟨decide (m < 0), m.natAbs, s⟩

/-- Model of in-range `rust_decimal` subtraction, analogous to `Decimal.add`. -/
def Decimal.sub (a b : Decimal) : Decimal :=
  let s := max a.scale b.scale
  let m := a.signedMantissa s - b.signedMantissa s
  ⟨decide (m < 0), m.natAbs, s⟩

/-- Persistent `"user"` row (`src/bfsrv/src/data/user.rs`): the columns the
ledger paths touch — id (`Uuid` as ℕ), `created_at` (timestamp as ℤ),
`balance` and `allocated_fee`; `email`, `referrer` and `campaign` are never
read or written by the allocation paths and are omitted. -/
structure UserRow where
  id : ℕ
  createdAt : ℤ
  balance : Decimal
  allocatedFee : Decimal
  deriving DecidableEq

/-- Persistent `node` row (`src/bfsrv/src/data/node.rs`); `u32` columns as ℕ
(in range on the paths considered). -/
structure NodeRow where
  id : ℕ
  label : String
  ipAddress : String
  computeCapacity : ℕ
  memoryCapacity : ℕ
  computeLoad : ℕ
  memoryLoad : ℕ
  deriving DecidableEq

/-- The transactional store visible to the ledger: the `"user"` and `node`
tables plus the `node_capability` join table as (node id, capability id)
pairs. -/
structure Store where
  users : List UserRow
  nodes : List NodeRow
  nodeCapabilities : List (ℕ × ℕ)
  deriving DecidableEq

/-- Embedding of `User::get`: `SELECT * FROM "user" WHERE id = $1`. -/
def Store.getUser (st : Store) (id : ℕ) : Option UserRow :=
  st.users.find? (fun u => u.id == id)

/-- Embedding of `Node::get`: `SELECT * FROM node WHERE id = $1`. -/
def Store.getNode (st : Store) (id : ℕ) : Option NodeRow :=
  st.nodes.find? (fun n => n.id == id)

/-- Embedding of `User::update` (`src/bfsrv/src/data/user.rs` lines 109-125):
the statement `UPDATE "user" SET created_at = $2, balance = $3 WHERE id = $1`
writes only the `created_at` and `balance` columns — the `allocated_fee`
column is absent from the SET list, although the method's doc comment says
it updates the row's columns with the current field values. -/
def Store.updateUser (st : Store) (u : UserRow) : Store :=
  { st with
    users := st.users.map (fun r =>
      if r.id = u.id then { r with createdAt := u.createdAt, balance := u.balance } else r) }

/-- Embedding of `Node::update`: writes every column of the node row. -/
def Store.updateNode (st : Store) (n : NodeRow) : Store :=
  { st with nodes := st.nodes.map (fun r => if r.id = n.id then n else r) }

/-- The SQL `COUNT(DISTINCT capability)` over `node_capability` rows of node
`n` with `capability = ANY($1)`: with the supplied capability ids distinct
(they are primary keys returned by
`Capability::find_with_task_type_and_tariff`), this is the number of
required ids the node has. -/
def matchedCount (st : Store) (n : ℕ) (capabilities : List ℕ) : ℕ :=
  (capabilities.filter (fun c => st.nodeCapabilities.contains (n, c))).length

/-- Embedding of `Node::find_one_with_available_resources`
(`src/bfsrv/src/data/node.rs` lines 21-52): select a node whose matched
capability count equals `cardinality($1)` and whose remaining compute and
memory capacities (SQL integer arithmetic) cover the request.
`ORDER BY random() LIMIT 1` returns an arbitrary satisfying row; the
embedding determinizes the choice to the first match. -/
def Node.findOneWithAvailableResources (st : Store) (capabilities : List ℕ)
    (compute memory : ℕ) : Option NodeRow :=
  st.nodes.find? (fun n =>
    (matchedCount st n.id capabilities == capabilities.length) &&
    decide ((compute : ℤ) ≤ (n.computeCapacity : ℤ) - (n.computeLoad : ℤ)) &&
    decide ((memory : ℤ) ≤ (n.memoryCapacity : ℤ) - (n.memoryLoad : ℤ)))

/-- The `ledger::Error` variants reachable from the allocation paths. -/
inductive LedgerError
  | userNotFound (id : ℕ)
  | nodeNotFound (id : ℕ)
  | notEnoughBalance
  | notEnoughResources
  deriving DecidableEq

/-- Embedding of `Ledger::try_allocate_atomically` (`ledger.rs` lines
181-217).  The node query is a parameter: at `ledger.rs:203` the transaction
invokes `Node::find_one_with_available_resources(&tx, compute, memory)` with
no capability list, while the function defined at `node.rs:21-26` requires
`(client, capabilities, compute, memory)`, so the call as written does not
type-check (a stale call site from another revision of the crate) and the
selection actually used by the transaction is taken as the parameter
`findNode`.  Everything else follows the source: load the user (else
`UserNotFound`); fail `NotEnoughBalance` iff
`!user.balance.is_sign_positive()`; select a node (else
`NotEnoughResources`); add the requested loads to the node and
`Node::update` it; add `fee` to the in-memory `user.allocated_fee` and
`User::update` the user; commit. -/
def tryAllocateAtomically (findNode : Store → ℕ → ℕ → Option NodeRow)
    (st : Store) (user : ℕ) (compute memory : ℕ) (fee : Decimal) :
    Except LedgerError (Store × NodeRow) :=
  match st.getUser user with
  | none => .error (.userNotFound user)
  | some u =>
    if !u.balance.isSignPositive then .error .notEnoughBalance
    else
      match findNode st compute memory with
      | none => .error .notEnoughResources
      | some node =>
        let node' := { node with
          computeLoad := node.computeLoad + compute,
          memoryLoad := node.memoryLoad + memory }
        let st1 := st.updateNode node'
        let u' := { u with allocatedFee := u.allocatedFee.add fee }
        let st2 := st1.updateUser u'
        .ok (st2, node')

/-- Embedding of `Allocation::check_invalidated` (`ledger.rs` lines 245-253):
load the owning user (else `UserNotFound`) and return
`!user.balance.is_sign_positive()`. -/
def checkInvalidated (st : Store) (user : ℕ) : Except LedgerError Bool :=
  match st.getUser user with
  | none => .error (.userNotFound user)
  | some u => .ok (!u.balance.isSignPositive)

/-- Embedding of `Allocation::try_deallocate_atomically` (`ledger.rs` lines
285-317): load the node (else `NodeNotFound`), subtract the allocation's
loads and `Node::update`; load the user (else `UserNotFound`), subtract
`fee` from the in-memory `allocated_fee` and `User::update`; commit. -/
def tryDeallocateAtomically (st : Store) (user node : ℕ) (compute memory : ℕ)
    (fee : Decimal) : Except LedgerError Store :=
  match st.getNode node with
  | none => .error (.nodeNotFound node)
  | some n =>
    let n' := { n with
      computeLoad := n.computeLoad - compute,
      memoryLoad := n.memoryLoad - memory }
    let st1 := st.updateNode n'
    match st1.getUser user with
    | none => .error (.userNotFound user)
    | some u =>
      let u' := { u with allocatedFee := u.allocatedFee.sub fee }
      .ok (st1.updateUser u')

theorem length_filter_eq_length_iff {α : Type} (p : α → Bool) (l : List α) :
    (l.filter p).length = l.length ↔ ∀ a ∈ l, p a = true := by
  induction l with
  | nil => simp
  | cons a l ih =>
    by_cases hp : p a = true
    · simp [hp, ih]
    · have hle := List.length_filter_le p l
      simp only [List.filter_cons, hp]
      simp only [Bool.false_eq_true, if_false]
      constructor
      · intro h
        simp at h
        omega
      · intro h
        exact absurd (h a (by simp)) (by simp [hp])

/-- C1 (code bug in `User::update`): the allocate transaction increments the
node's loads and the in-memory `user.allocated_fee`, then calls
`User::update`; but the stored user row's `allocated_fee` is unchanged,
because the UPDATE statement sets only `created_at` and `balance`.
Concretely, with one user (balance 10, stored `allocated_fee` 0), one
capable node and fee 2: allocate succeeds and commits a store whose user
row still carries `allocated_fee = 0`, while the in-memory increment the
spec says is persisted is `0 + 2 = 2 ≠ 0`; the subsequent deallocation
restores the node's loads exactly (that part of the claim holds) and again
leaves the stored `allocated_fee` untouched; and a direct `User::update` of
a struct carrying `allocated_fee = 2` leaves the stored column at 0. -/
theorem C1_allocated_fee_not_persisted :
    tryAllocateAtomically
        (fun s c m => Node.findOneWithAvailableResources s [7] c m)
        ⟨[⟨0, 0, ⟨false, 10, 0⟩, ⟨false, 0, 0⟩⟩], [⟨1, "n", "ip", 4, 4, 0, 0⟩], [(1, 7)]⟩
        0 1 1 ⟨false, 2, 0⟩ =
      .ok (⟨[⟨0, 0, ⟨false, 10, 0⟩, ⟨false, 0, 0⟩⟩],
            [⟨1, "n", "ip", 4, 4, 1, 1⟩], [(1, 7)]⟩,
        ⟨1, "n", "ip", 4, 4, 1, 1⟩) ∧
    (Decimal.mk false 0 0).add ⟨false, 2, 0⟩ = ⟨false, 2, 0⟩ ∧
    (Decimal.mk false 2 0) ≠ ⟨false, 0, 0⟩ ∧
    (Store.updateUser ⟨[⟨0, 0, ⟨false, 10, 0⟩, ⟨false, 0, 0⟩⟩], [], []⟩
        ⟨0, 0, ⟨false, 10, 0⟩, ⟨false, 2, 0⟩⟩).getUser 0 =
      some ⟨0, 0, ⟨false, 10, 0⟩, ⟨false, 0, 0⟩⟩ ∧
    tryDeallocateAtomically
        ⟨[⟨0, 0, ⟨false, 10, 0⟩, ⟨false, 0, 0⟩⟩], [⟨1, "n", "ip", 4, 4, 1, 1⟩], [(1, 7)]⟩
        0 1 1 1 ⟨false, 2, 0⟩ =
      .ok ⟨[⟨0, 0, ⟨false, 10, 0⟩, ⟨false, 0, 0⟩⟩], [⟨1, "n", "ip", 4, 4, 0, 0⟩], [(1, 7)]⟩ :=
  ⟨rfl, rfl, by decide, rfl, rfl⟩

/-- C3 counterexample: a user whose balance is a positively-signed exact
zero — so `balance ≤ 0` holds — is treated as sufficient by both
operations: `check_invalidated` returns `false` (the claim requires `true`)
and `try_allocate_atomically` does not fail with `NotEnoughBalance` but
commits an allocation (the claim requires the failure), because the check
is `!balance.is_sign_positive()`, i.e. the sign flag, not `balance ≤ 0`. -/
theorem C3_counterexample_zero_balance :
    (Decimal.mk false 0 0).val = 0 ∧
    checkInvalidated
        ⟨[⟨0, 0, ⟨false, 0, 0⟩, ⟨false, 0, 0⟩⟩], [⟨1, "n", "ip", 4, 4, 0, 0⟩], [(1, 7)]⟩
        0 = .ok false ∧
    tryAllocateAtomically
        (fun s c m => Node.findOneWithAvailableResources s [7] c m)
        ⟨[⟨0, 0, ⟨false, 0, 0⟩, ⟨false, 0, 0⟩⟩], [⟨1, "n", "ip", 4, 4, 0, 0⟩], [(1, 7)]⟩
        0 1 1 ⟨false, 2, 0⟩ =
      .ok (⟨[⟨0, 0, ⟨false, 0, 0⟩, ⟨false, 0, 0⟩⟩],
            [⟨1, "n", "ip", 4, 4, 1, 1⟩], [(1, 7)]⟩,
        ⟨1, "n", "ip", 4, 4, 1, 1⟩) :=
  ⟨by norm_num [Decimal.val], rfl, rfl⟩

/-- C3 (amended): allocate fails `UserNotFound` (and so does
`check_invalidated`) exactly when the user is absent; given the user,
allocate fails `NotEnoughBalance` iff the balance's sign flag is negative
(`is_sign_positive() = false`), and `check_invalidated` returns exactly that
sign condition.  A negative sign implies value ≤ 0 (strictly negative for a
non-zero mantissa), but a positively-signed zero — value exactly 0 — passes
both checks, so "balance ≤ 0 fails" holds only up to the sign of zero. -/
theorem C3_balance_check_is_sign_check
    (findNode : Store → ℕ → ℕ → Option NodeRow) (st : Store) (user : ℕ)
    (compute memory : ℕ) (fee : Decimal) :
    (st.getUser user = none →
      tryAllocateAtomically findNode st user compute memory fee =
        .error (.userNotFound user) ∧
      checkInvalidated st user = .error (.userNotFound user)) ∧
    (∀ u, st.getUser user = some u →
      ((tryAllocateAtomically findNode st user compute memory fee =
          .error .notEnoughBalance) ↔ u.balance.isSignPositive = false) ∧
      checkInvalidated st user = .ok (!u.balance.isSignPositive) ∧
      (u.balance.neg = true → u.balance.val ≤ 0) ∧
      (u.balance.neg = true → 0 < u.balance.mantissa → u.balance.val < 0)) := by
  constructor
  · intro h
    exact ⟨by simp [tryAllocateAtomically, h], by simp [checkInvalidated, h]⟩
  · intro u hu
    refine ⟨?_, by simp [checkInvalidated, hu], ?_, ?_⟩
    · constructor
      · intro hres
        by_contra hpos
        rw [Bool.not_eq_false] at hpos
        rw [tryAllocateAtomically] at hres
        rw [hu] at hres
        simp only [hpos, Bool.not_true, Bool.false_eq_true, if_false] at hres
        cases hfn : findNode st compute memory with
        | none => rw [hfn] at hres; simp at hres
        | some node => rw [hfn] at hres; simp at hres
      · intro hneg
        simp [tryAllocateAtomically, hu, hneg]
    · intro hneg
      rw [Decimal.val, hneg]
      have h10 : (0 : ℚ) < 10 ^ u.balance.scale := by positivity
      have hm : (0 : ℚ) ≤ (u.balance.mantissa : ℚ) := by positivity
      rw [if_pos rfl]
      calc -1 * (u.balance.mantissa : ℚ) / 10 ^ u.balance.scale
          = -((u.balance.mantissa : ℚ) / 10 ^ u.balance.scale) := by ring
        _ ≤ 0 := neg_nonpos.mpr (div_nonneg hm (le_of_lt h10))
    · intro hneg hm
      rw [Decimal.val, hneg, if_pos rfl]
      have h10 : (0 : ℚ) < 10 ^ u.balance.scale := by positivity
      have hmq : (0 : ℚ) < (u.balance.mantissa : ℚ) := by exact_mod_cast hm
      calc -1 * (u.balance.mantissa : ℚ) / 10 ^ u.balance.scale
          = -((u.balance.mantissa : ℚ) / 10 ^ u.balance.scale) := by ring
        _ < 0 := neg_lt_zero.mpr (div_pos hmq h10)

theorem C3_balance_check_is_sign_check_witness :
    checkInvalidated ⟨[⟨0, 0, ⟨true, 5, 0⟩, ⟨false, 0, 0⟩⟩], [], []⟩ 0 = .ok true ∧
    tryAllocateAtomically (fun _ _ _ => none)
        ⟨[⟨0, 0, ⟨true, 5, 0⟩, ⟨false, 0, 0⟩⟩], [], []⟩ 0 1 1 ⟨false, 2, 0⟩ =
      .error .notEnoughBalance := by
  obtain ⟨hiff, hchk, -, -⟩ :=
    (C3_balance_check_is_sign_check (fun _ _ _ => none)
        ⟨[⟨0, 0, ⟨true, 5, 0⟩, ⟨false, 0, 0⟩⟩], [], []⟩ 0 1 1 ⟨false, 2, 0⟩).2
      ⟨0, 0, ⟨true, 5, 0⟩, ⟨false, 0, 0⟩⟩ rfl
  exact ⟨by simpa using hchk, hiff.mpr (by decide)⟩

/-- C4: the contract of `Node::find_one_with_available_resources` as defined
at `node.rs:21-52` — a returned node is a stored node that covers every
required capability and has remaining compute and memory at least the
request, and `none` is returned exactly when no stored node satisfies all
three conditions — and, composing it (with its required capability-list
argument) into the allocate transaction: for a present user with a
positively-signed balance, an unsatisfiable request makes the transaction
fail with `NotEnoughResources`.  Note the call at `ledger.rs:203` omits the
`capabilities` argument this function requires, so the transaction as
written in the ledger never supplies the capability ids (see the embedding's
doc comment on `tryAllocateAtomically`). -/
theorem C4_node_selection_conditions (st : Store) (caps : List ℕ)
    (compute memory : ℕ) :
    (∀ n, Node.findOneWithAvailableResources st caps compute memory = some n →
      n ∈ st.nodes ∧
      (∀ c ∈ caps, (n.id, c) ∈ st.nodeCapabilities) ∧
      (compute : ℤ) ≤ (n.computeCapacity : ℤ) - (n.computeLoad : ℤ) ∧
      (memory : ℤ) ≤ (n.memoryCapacity : ℤ) - (n.memoryLoad : ℤ)) ∧
    (Node.findOneWithAvailableResources st caps compute memory = none →
      ∀ n ∈ st.nodes,
        ¬((∀ c ∈ caps, (n.id, c) ∈ st.nodeCapabilities) ∧
          (compute : ℤ) ≤ (n.computeCapacity : ℤ) - (n.computeLoad : ℤ) ∧
          (memory : ℤ) ≤ (n.memoryCapacity : ℤ) - (n.memoryLoad : ℤ))) ∧
    (∀ user fee u, st.getUser user = some u → u.balance.isSignPositive = true →
      Node.findOneWithAvailableResources st caps compute memory = none →
      tryAllocateAtomically
          (fun s c m => Node.findOneWithAvailableResources s caps c m)
          st user compute memory fee = .error .notEnoughResources) := by
  have hcover : ∀ n : NodeRow,
      (matchedCount st n.id caps = caps.length ↔
        ∀ c ∈ caps, (n.id, c) ∈ st.nodeCapabilities) := by
    intro n
    rw [matchedCount, length_filter_eq_length_iff]
    constructor
    · intro h c hc
      exact List.mem_of_elem_eq_true (h c hc)
    · intro h c hc
      exact List.elem_eq_true_of_mem (h c hc)
  refine ⟨?_, ?_, ?_⟩
  · intro n hn
    have hmem := List.mem_of_find?_eq_some hn
    have hp := List.find?_some hn
    simp only [Bool.and_eq_true, beq_iff_eq, decide_eq_true_eq] at hp
    exact ⟨hmem, (hcover n).mp hp.1.1, hp.1.2, hp.2⟩
  · intro hnone n hn hsat
    rw [Node.findOneWithAvailableResources, List.find?_eq_none] at hnone
    apply hnone n hn
    simp only [Bool.and_eq_true, beq_iff_eq, decide_eq_true_eq]
    exact ⟨⟨(hcover n).mpr hsat.1, hsat.2.1⟩, hsat.2.2⟩
  · intro user fee u hu hpos hnone
    simp [tryAllocateAtomically, hu, hpos, hnone]

theorem C4_node_selection_conditions_witness :
    Node.findOneWithAvailableResources
        ⟨[⟨0, 0, ⟨false, 10, 0⟩, ⟨false, 0, 0⟩⟩], [⟨1, "n", "ip", 4, 4, 0, 0⟩], []⟩
        [7] 1 1 = none ∧
    tryAllocateAtomically
        (fun s c m => Node.findOneWithAvailableResources s [7] c m)
        ⟨[⟨0, 0, ⟨false, 10, 0⟩, ⟨false, 0, 0⟩⟩], [⟨1, "n", "ip", 4, 4, 0, 0⟩], []⟩
        0 1 1 ⟨false, 2, 0⟩ = .error .notEnoughResources :=
  ⟨rfl,
   (C4_node_selection_conditions
       ⟨[⟨0, 0, ⟨false, 10, 0⟩, ⟨false, 0, 0⟩⟩], [⟨1, "n", "ip", 4, 4, 0, 0⟩], []⟩
       [7] 1 1).2.2 0 ⟨false, 2, 0⟩ ⟨0, 0, ⟨false, 10, 0⟩, ⟨false, 0, 0⟩⟩ rfl rfl rfl⟩
